import Mathlib

/-!
Verification of the equuleus serial-line replay tool.

The development shallowly embeds the core of `src/tty.rs` (the pseudo-terminal
emulator `Pseudo::start`, the real-port `publisher`, the `protocols` line
loader and the `visit_dirs` directory walk) and the settings construction of
`src/app.rs` (`launch`), and proves the spec's claims about them.

External effects (the serial channel, the mutex, the clock) are modelled as an
explicit trace of events plus a per-line environment describing the outcome of
the lock acquisition and of the channel read/write calls; the filesystem is
modelled as a tree of directories and line-listed files.
-/

namespace Equuleus

/-- Durations (`std::time::Duration`), abstracted to a natural number of
time units; only identity of values matters for the claims. -/
abbrev Duration := Nat

/-- The error kinds of `src/errors.rs` (`error_chain!` foreign links) that the
core can produce: I/O errors from `read`/`write`, and `Utf8Error` from
`std::str::from_utf8`. -/
inductive Error where
  | stdIo
  | utf8
  deriving DecidableEq, Repr

/-- `Result<T>` from `src/errors.rs`. -/
abbrev Result (α : Type) := Except Error α

/-- Observable events of a run: lock traffic, channel reads/writes and sleeps.
`readChan bs` is a successful `port.read` returning the bytes `bs`;
`readFail` is a `port.read` call that returned an I/O error;
`writeChan bs` is a `port.write` call handed exactly the bytes `bs`;
`lockFailLog` is the `error!` logging on a failed `port.lock()`. -/
inductive Event where
  | lockAcquire
  | lockRelease
  | lockFailLog
  | readChan (bytes : List Nat)
  | readFail
  | writeChan (bytes : List Nat)
  | sleep (d : Duration)
  deriving DecidableEq, Repr

/-- Outcome of `port.lock()`: a guard, or a poisoned-lock error. -/
inductive LockOutcome where
  | ok
  | poisoned
  deriving DecidableEq, Repr

/-- Outcome of one `port.read` call: the bytes the channel delivered, or an
I/O error.  The buffer bound (1024 bytes) is applied by the handler. -/
inductive ReadOutcome where
  | ok (bytes : List Nat)
  | err
  deriving DecidableEq, Repr

/-- Outcome of one `port.write` call. -/
inductive WriteOutcome where
  | ok
  | err
  deriving DecidableEq, Repr

/-- The environment of one per-line handler invocation: what the external
world (mutex, channel) answers to each call the handler makes. -/
structure LineEnv where
  lock : LockOutcome
  read : ReadOutcome
  write : WriteOutcome
  deriving DecidableEq, Repr

/-- UTF-8 encoding of one scalar value (code point). -/
def charUtf8 (c : Char) : List Nat :=
  let n := c.toNat
  if n < 0x80 then [n]
  else if n < 0x800 then
    [0xC0 ||| (n >>> 6), 0x80 ||| (n &&& 0x3F)]
  else if n < 0x10000 then
    [0xE0 ||| (n >>> 12), 0x80 ||| ((n >>> 6) &&& 0x3F), 0x80 ||| (n &&& 0x3F)]
  else
    [0xF0 ||| (n >>> 18), 0x80 ||| ((n >>> 12) &&& 0x3F),
     0x80 ||| ((n >>> 6) &&& 0x3F), 0x80 ||| (n &&& 0x3F)]

/-- The bytes of a string, as `str::as_bytes` sees them (UTF-8 encoding). -/
def strBytes (s : String) : List Nat :=
  s.data.flatMap charUtf8

/-- Rust `char::is_whitespace`: the Unicode White_Space property. -/
def isRustWhitespace (c : Char) : Bool :=
  let n := c.toNat
  n == 0x20 || (0x09 ≤ n && n ≤ 0x0D) || n == 0x85 || n == 0xA0 ||
  n == 0x1680 || (0x2000 ≤ n && n ≤ 0x200A) || n == 0x2028 || n == 0x2029 ||
  n == 0x202F || n == 0x205F || n == 0x3000

/-- Rust `str::trim`: strip leading and trailing whitespace characters. -/
def trim (s : String) : String :=
  ⟨((s.data.dropWhile isRustWhitespace).reverse.dropWhile isRustWhitespace).reverse⟩

/-- Rust `str::is_empty` on the trimmed line (`line.is_empty()`). -/
def strIsEmpty (s : String) : Bool :=
  s.data.isEmpty

/-- Is `b` a UTF-8 continuation byte (`10xxxxxx`)? -/
def isCont (b : Nat) : Bool := 0x80 ≤ b && b ≤ 0xBF

/-- UTF-8 validity of a byte sequence, as checked by `std::str::from_utf8`
(RFC 3629: no overlong forms, no surrogates, nothing above U+10FFFF). -/
def validUtf8 : List Nat → Bool
  | [] => true
  | b :: rest =>
    if b ≤ 0x7F then validUtf8 rest
    else if 0xC2 ≤ b && b ≤ 0xDF then
      match rest with
      | b1 :: rest2 => isCont b1 && validUtf8 rest2
      | [] => false
    else if b == 0xE0 then
      match rest with
      | b1 :: b2 :: rest2 => (0xA0 ≤ b1 && b1 ≤ 0xBF) && isCont b2 && validUtf8 rest2
      | _ => false
    else if (0xE1 ≤ b && b ≤ 0xEC) || b == 0xEE || b == 0xEF then
      match rest with
      | b1 :: b2 :: rest2 => isCont b1 && isCont b2 && validUtf8 rest2
      | _ => false
    else if b == 0xED then
      match rest with
      | b1 :: b2 :: rest2 => (0x80 ≤ b1 && b1 ≤ 0x9F) && isCont b2 && validUtf8 rest2
      | _ => false
    else if b == 0xF0 then
      match rest with
      | b1 :: b2 :: b3 :: rest2 =>
          (0x90 ≤ b1 && b1 ≤ 0xBF) && isCont b2 && isCont b3 && validUtf8 rest2
      | _ => false
    else if 0xF1 ≤ b && b ≤ 0xF3 then
      match rest with
      | b1 :: b2 :: b3 :: rest2 => isCont b1 && isCont b2 && isCont b3 && validUtf8 rest2
      | _ => false
    else if b == 0xF4 then
      match rest with
      | b1 :: b2 :: b3 :: rest2 =>
          (0x80 ≤ b1 && b1 ≤ 0x8F) && isCont b2 && isCont b3 && validUtf8 rest2
      | _ => false
    else false

/-- The read buffer size `1 << 10` of `tty.rs`. -/
def bufSize : Nat := 1 <<< 10

/-- The per-line closure of `Pseudo::start` (`src/tty.rs:85-109`):
lock the master port; on success, when a delay is configured, read up to 1024
bytes, log them (decoding them with `from_utf8`, whose failure propagates),
sleep for the delay, then write the line's bytes; on lock failure, log and
skip the line's I/O.  In every non-error case the closure finally sleeps for
the interval and returns `Ok(())`.  Errors inside the critical section
propagate (the guard is dropped, and the trailing interval sleep is not
reached). -/
def pseudoLine (interval : Duration) (delay : Option Duration)
    (env : LineEnv) (it : String) : List Event × Result Unit :=
  match env.lock with
  | LockOutcome.poisoned =>
    ([Event.lockFailLog, Event.sleep interval], Except.ok ())
  | LockOutcome.ok =>
    let inner : List Event × Result Unit :=
      match delay with
      | some d =>
        match env.read with
        | ReadOutcome.err => ([Event.readFail], Except.error Error.stdIo)
        | ReadOutcome.ok bs0 =>
          let bs := bs0.take bufSize
          if validUtf8 bs then
            match env.write with
            | WriteOutcome.ok =>
              ([Event.readChan bs, Event.sleep d, Event.writeChan (strBytes it)],
               Except.ok ())
            | WriteOutcome.err =>
              ([Event.readChan bs, Event.sleep d, Event.writeChan (strBytes it)],
               Except.error Error.stdIo)
          else ([Event.readChan bs], Except.error Error.utf8)
      | none =>
        match env.write with
        | WriteOutcome.ok => ([Event.writeChan (strBytes it)], Except.ok ())
        | WriteOutcome.err => ([Event.writeChan (strBytes it)], Except.error Error.stdIo)
    match inner with
    | (tr, Except.ok _) =>
      (Event.lockAcquire :: tr ++ [Event.lockRelease, Event.sleep interval], Except.ok ())
    | (tr, Except.error e) =>
      (Event.lockAcquire :: tr ++ [Event.lockRelease], Except.error e)

/-- The per-line closure of `publisher` (`src/tty.rs:125-149`):
sleep for the interval; lock the port; on success write the line's bytes and,
when a delay is configured, sleep for the delay and read up to 1024 bytes
(decode failure propagating); on lock failure, log and skip the line's I/O.
Errors inside the critical section propagate (the guard is dropped). -/
def publisherLine (interval : Duration) (delay : Option Duration)
    (env : LineEnv) (it : String) : List Event × Result Unit :=
  match env.lock with
  | LockOutcome.poisoned =>
    ([Event.sleep interval, Event.lockFailLog], Except.ok ())
  | LockOutcome.ok =>
    let inner : List Event × Result Unit :=
      match env.write with
      | WriteOutcome.err => ([Event.writeChan (strBytes it)], Except.error Error.stdIo)
      | WriteOutcome.ok =>
        match delay with
        | none => ([Event.writeChan (strBytes it)], Except.ok ())
        | some d =>
          match env.read with
          | ReadOutcome.err =>
            ([Event.writeChan (strBytes it), Event.sleep d, Event.readFail],
             Except.error Error.stdIo)
          | ReadOutcome.ok bs0 =>
            let bs := bs0.take bufSize
            if validUtf8 bs then
              ([Event.writeChan (strBytes it), Event.sleep d, Event.readChan bs],
               Except.ok ())
            else
              ([Event.writeChan (strBytes it), Event.sleep d, Event.readChan bs],
               Except.error Error.utf8)
    match inner with
    | (tr, Except.ok _) =>
      (Event.sleep interval :: Event.lockAcquire :: tr ++ [Event.lockRelease], Except.ok ())
    | (tr, Except.error e) =>
      (Event.sleep interval :: Event.lockAcquire :: tr ++ [Event.lockRelease],
       Except.error e)

/-- A filesystem node: a regular file (with the text lines `BufReader::lines`
yields for it, line terminators stripped), or a directory with its entries in
enumeration order. -/
inductive FsNode where
  | file (lines : List String)
  | dir (entries : List FsNode)

/-- The per-file loop of `protocols` (`src/tty.rs:171-177`): for each line of
the file, trim it, skip it if empty after trimming, otherwise invoke the
handler; a handler error stops the loop and propagates.  The handler is
instrumented: it returns a list of outputs `ω` (its events, or a record of
its argument) which the loop concatenates. -/
def runFile {ω : Type} (cb : String → List ω × Result Unit) :
    List String → List ω × Result Unit
  | [] => ([], Except.ok ())
  | line :: rest =>
    let t := trim line
    if strIsEmpty t then runFile cb rest
    else
      match cb t with
      | (out, Except.ok _) =>
        let (out2, r) := runFile cb rest
        (out ++ out2, r)
      | (out, Except.error e) => (out, Except.error e)

/-- The entry loop of `visit_dirs` (`src/tty.rs:187-195`): recurse into
subdirectories, apply the per-file callback to regular files; the first error
propagates immediately and stops the walk. -/
def visitEntries {ω : Type} (cb : List String → List ω × Result Unit) :
    List FsNode → List ω × Result Unit
  | [] => ([], Except.ok ())
  | FsNode.file ls :: rest =>
    match cb ls with
    | (out, Except.ok _) =>
      let (out2, r) := visitEntries cb rest
      (out ++ out2, r)
    | (out, Except.error e) => (out, Except.error e)
  | FsNode.dir es :: rest =>
    match visitEntries cb es with
    | (out, Except.ok _) =>
      let (out2, r) := visitEntries cb rest
      (out ++ out2, r)
    | (out, Except.error e) => (out, Except.error e)

/-- `visit_dirs` (`src/tty.rs:185-198`): if the root resolves to a directory,
walk its entries; a nonexistent path (`none`) or a non-directory node answers
`is_dir() = false` and the walk is a silent no-op. -/
def visit_dirs {ω : Type} (cb : List String → List ω × Result Unit) :
    Option FsNode → List ω × Result Unit
  | none => ([], Except.ok ())
  | some (FsNode.file _) => ([], Except.ok ())
  | some (FsNode.dir entries) => visitEntries cb entries

/-- `protocols` (`src/tty.rs:164-183`): walk the tree under the root and feed
every file's nonempty trimmed lines, in file order, to the per-line handler. -/
def protocols {ω : Type} (root : Option FsNode)
    (cb : String → List ω × Result Unit) : List ω × Result Unit :=
  visit_dirs (fun ls => runFile cb ls) root

/-- `Pseudo::start` (`src/tty.rs:79-113`): run the protocol walk with the
pseudo-terminal per-line closure; `env it` is the external outcome
environment (mutex and channel answers) for the invocation on line `it`. -/
def pseudoStart (root : Option FsNode) (interval : Duration) (delay : Option Duration)
    (env : String → LineEnv) : List Event × Result Unit :=
  protocols root (fun it => pseudoLine interval delay (env it) it)

/-- `publisher` (`src/tty.rs:116-153`) after the port has been opened: run the
protocol walk with the publisher per-line closure. -/
def publisherRun (root : Option FsNode) (interval : Duration) (delay : Option Duration)
    (env : String → LineEnv) : List Event × Result Unit :=
  protocols root (fun it => publisherLine interval delay (env it) it)

/-- The nonempty trimmed lines of one file, in file order: exactly the
arguments `protocols` hands to the per-line handler for that file. -/
def fileLines (ls : List String) : List String :=
  (ls.map trim).filter (fun t => !strIsEmpty t)

/-- All handler lines of a subtree list, in traversal order. -/
def entriesLines : List FsNode → List String
  | [] => []
  | FsNode.file ls :: rest => fileLines ls ++ entriesLines rest
  | FsNode.dir es :: rest => entriesLines es ++ entriesLines rest

/-- All handler lines reachable from the root, in traversal order. -/
def allLines : Option FsNode → List String
  | none => []
  | some (FsNode.file _) => []
  | some (FsNode.dir entries) => entriesLines entries

/-! ### Static enumeration tables (`src/tty.rs:14-44`) -/

/-- The `BaudRate` static: the enumerated standard rates shown in help text. -/
def BaudRate : List Nat := [1200, 2400, 4800, 9600, 19200, 38400, 57600, 115200]

/-- The `DataBits` static map (key, description). -/
def DataBits : List (String × String) :=
  [("Five", "5 bits per character"), ("Six", "6 bits per character"),
   ("Seven", "7 bits per character"), ("Eight", "8 bits per character")]

/-- The `FlowControl` static map (key, description). -/
def FlowControl : List (String × String) :=
  [("None", "No flow control"), ("Software", "Flow control using XON/XOFF bytes"),
   ("Hardware", "Flow control using RTS/CTS signals")]

/-- The `Parity` static map (key, description). -/
def Parity : List (String × String) :=
  [("None", "No parity bit."), ("Odd", "Parity bit sets odd number of 1 bits"),
   ("Even", "Parity bit sets even number of 1 bits")]

/-- The `StopBits` static map (key, description). -/
def StopBits : List (String × String) :=
  [("One", "One stop bit"), ("Two", "Two stop bit")]

/-! ### Settings construction in `launch` (`src/app.rs:164-195`) -/

namespace serialport

/-- `serialport::DataBits`. -/
inductive DataBits where
  | Five | Six | Seven | Eight
  deriving DecidableEq, Repr

/-- `serialport::FlowControl`. -/
inductive FlowControl where
  | None | Software | Hardware
  deriving DecidableEq, Repr

/-- `serialport::Parity`. -/
inductive Parity where
  | None | Odd | Even
  deriving DecidableEq, Repr

/-- `serialport::StopBits`. -/
inductive StopBits where
  | One | Two
  deriving DecidableEq, Repr

/-- The fields of `serialport::SerialPortSettings` that `launch` sets. -/
structure SerialPortSettings where
  baud_rate : Nat
  data_bits : DataBits
  flow_control : FlowControl
  parity : Parity
  stop_bits : StopBits
  deriving DecidableEq, Repr

end serialport

/-- Rust's `str::parse::<u32>`: an optional leading `+`, then one or more
ASCII digits, value below `2^32`; anything else fails.  A failure makes
`launch` panic via `.unwrap()`. -/
def parseU32 (s : String) : Option Nat :=
  let cs := match s.data with
    | '+' :: rest => rest
    | cs => cs
  if cs.isEmpty then none
  else if cs.all (fun c => c.isDigit) then
    let n := cs.foldl (fun acc c => acc * 10 + (c.toNat - 48)) 0
    if n < 2 ^ 32 then some n else none
  else none

/-- The `data_bits` match of `launch` (`src/app.rs:172-178`); the catch-all
arm is `panic!("bad data bits")`, modelled as `none`. -/
def matchDataBits (s : String) : Option serialport.DataBits :=
  if s == "Five" then some serialport.DataBits.Five
  else if s == "Six" then some serialport.DataBits.Six
  else if s == "Seven" then some serialport.DataBits.Seven
  else if s == "Eight" then some serialport.DataBits.Eight
  else none

/-- The `flow_control` match of `launch` (`src/app.rs:179-184`); the catch-all
arm is `panic!("bad flow control")`. -/
def matchFlowControl (s : String) : Option serialport.FlowControl :=
  if s == "None" then some serialport.FlowControl.None
  else if s == "Software" then some serialport.FlowControl.Software
  else if s == "Hardware" then some serialport.FlowControl.Hardware
  else none

/-- The `parity` match of `launch` (`src/app.rs:185-190`); the catch-all arm
is `panic!("bad parity")`. -/
def matchParity (s : String) : Option serialport.Parity :=
  if s == "None" then some serialport.Parity.None
  else if s == "Odd" then some serialport.Parity.Odd
  else if s == "Even" then some serialport.Parity.Even
  else none

/-- The `stop_bits` match of `launch` (`src/app.rs:191-195`); the catch-all
arm is `panic!("bad stop bits")`. -/
def matchStopBits (s : String) : Option serialport.StopBits :=
  if s == "One" then some serialport.StopBits.One
  else if s == "Two" then some serialport.StopBits.Two
  else none

/-- The publisher-settings assembly of `launch` (`src/app.rs:164-195`): each
argument is the optional command-line token; missing tokens take the
`unwrap_or` defaults.  The baud-rate token is parsed as a `u32` and converted
with `.into()` — no membership check against `BaudRate` — while the four
enumerated settings panic on an unrecognized token (`none` here). -/
def launchSettings (baud data flow par stop : Option String) :
    Option serialport.SerialPortSettings := do
  let br ← parseU32 (baud.getD "9600")
  let db ← matchDataBits (data.getD "Eight")
  let fc ← matchFlowControl (flow.getD "None")
  let pa ← matchParity (par.getD "None")
  let sb ← matchStopBits (stop.getD "One")
  some ⟨br, db, fc, pa, sb⟩

/-! ### The guard discipline (claim about `Mutex` usage) -/

/-- One step of the guard automaton over a trace: the state is `some held`
(`held` = the guard is currently held) or `none` once a violation occurred.
Reads and writes are violations unless the guard is held; acquiring twice or
releasing without holding are violations; logging and sleeping are always
allowed. -/
def guardStep : Option Bool → Event → Option Bool
  | none, _ => none
  | some held, e =>
    match e with
    | Event.lockAcquire => if held then none else some true
    | Event.lockRelease => if held then some false else none
    | Event.readChan _ => if held then some held else none
    | Event.readFail => if held then some held else none
    | Event.writeChan _ => if held then some held else none
    | Event.lockFailLog => some held
    | Event.sleep _ => some held

/-- A trace respects the guard discipline: starting with the guard free, no
read/write happens outside a held guard, acquire/release bracket properly,
and the guard is free again at the end (released on every exit path). -/
def guarded (tr : List Event) : Bool :=
  tr.foldl guardStep (some false) == some false

/-! ### Instrumentation handlers and characterizations -/

/-- A handler that records its argument and always succeeds: running the walk
with it yields the exact sequence of handler invocations. -/
def recHandler : String → List String × Result Unit :=
  fun t => ([t], Except.ok ())

/-- A handler that records its argument and fails (with `e`) exactly on the
lines satisfying `p`: the generic shape used to state how the walk reacts to
per-line handler errors. -/
def badHandler (p : String → Bool) (e : Error) : String → List String × Result Unit :=
  fun t => ([t], if p t then Except.error e else Except.ok ())

/-- The prefix of a list up to and including its first element satisfying
`p` (the whole list when none does). -/
def takeThrough (p : String → Bool) : List String → List String
  | [] => []
  | x :: xs => if p x then [x] else x :: takeThrough p xs

/-! ## Helper lemmas -/

theorem fileLines_cons (l : String) (ls : List String) :
    fileLines (l :: ls) =
      if strIsEmpty (trim l) then fileLines ls else trim l :: fileLines ls := by
  by_cases h : strIsEmpty (trim l) = true <;> simp [fileLines, List.filter_cons, h]

/-- With an always-succeeding handler, `runFile` invokes it on exactly the
nonempty trimmed lines, in order, and succeeds. -/
theorem runFile_ok {ω : Type} (cb : String → List ω × Result Unit)
    (h : ∀ t, (cb t).2 = Except.ok ()) :
    ∀ ls : List String,
      runFile cb ls = ((fileLines ls).flatMap (fun t => (cb t).1), Except.ok ())
  | [] => by simp [runFile, fileLines]
  | line :: rest => by
    by_cases he : strIsEmpty (trim line) = true
    · simp only [runFile, he, if_true, fileLines_cons]
      exact runFile_ok cb h rest
    · have hcb := h (trim line)
      rcases hout : cb (trim line) with ⟨out, r⟩
      rw [hout] at hcb
      simp only at hcb
      subst hcb
      simp [runFile, he, hout, runFile_ok cb h rest, fileLines_cons]

/-- Lifting `runFile_ok` through the directory walk. -/
theorem visitEntries_ok {ω : Type} (cb : String → List ω × Result Unit)
    (h : ∀ t, (cb t).2 = Except.ok ()) :
    ∀ entries : List FsNode,
      visitEntries (fun ls => runFile cb ls) entries =
        ((entriesLines entries).flatMap (fun t => (cb t).1), Except.ok ())
  | [] => by simp [visitEntries, entriesLines]
  | FsNode.file ls :: rest => by
    simp [visitEntries, runFile_ok cb h ls, visitEntries_ok cb h rest, entriesLines]
  | FsNode.dir es :: rest => by
    simp [visitEntries, visitEntries_ok cb h es, visitEntries_ok cb h rest, entriesLines]

/-- With an always-succeeding handler, `protocols` invokes it on exactly the
lines of `allLines`, in order, and succeeds. -/
theorem protocols_ok {ω : Type} (cb : String → List ω × Result Unit)
    (h : ∀ t, (cb t).2 = Except.ok ()) (root : Option FsNode) :
    protocols root cb = ((allLines root).flatMap (fun t => (cb t).1), Except.ok ()) := by
  match root with
  | none => simp [protocols, visit_dirs, allLines]
  | some (FsNode.file ls) => simp [protocols, visit_dirs, allLines]
  | some (FsNode.dir entries) =>
    simp [protocols, visit_dirs, allLines, visitEntries_ok cb h entries]

theorem flatMap_single (ls : List String) : ls.flatMap (fun t => [t]) = ls := by
  induction ls with
  | nil => rfl
  | cons x xs ih => simp [ih]

theorem takeThrough_append (p : String → Bool) :
    ∀ xs ys : List String,
      takeThrough p (xs ++ ys) =
        if xs.any p then takeThrough p xs else takeThrough p xs ++ takeThrough p ys
  | [], ys => by simp [takeThrough]
  | x :: xs, ys => by
    by_cases hx : p x = true
    · simp [takeThrough, hx]
    · by_cases hb : xs.any p = true
      · simp [takeThrough, hx, hb, takeThrough_append p xs ys]
      · simp [takeThrough, hx, hb, takeThrough_append p xs ys]

/-- `runFile` with a handler failing exactly on the lines satisfying `p`:
the invocations are the nonempty trimmed lines up to and including the first
failing one, and that line's error propagates. -/
theorem runFile_bad (p : String → Bool) (e : Error) :
    ∀ ls : List String,
      runFile (badHandler p e) ls =
        (takeThrough p (fileLines ls),
         if (fileLines ls).any p then Except.error e else Except.ok ())
  | [] => by simp [runFile, fileLines, takeThrough]
  | line :: rest => by
    by_cases he : strIsEmpty (trim line) = true
    · simp only [runFile, he, if_true, fileLines_cons]
      exact runFile_bad p e rest
    · by_cases hp : p (trim line) = true
      · simp [runFile, he, hp, badHandler, fileLines_cons, takeThrough]
      · simp [runFile, he, hp, badHandler, fileLines_cons, takeThrough,
          runFile_bad p e rest]

/-- Lifting `runFile_bad` through the directory walk: the walk stops at the
first failing line, across file and directory boundaries. -/
theorem visitEntries_bad (p : String → Bool) (e : Error) :
    ∀ entries : List FsNode,
      visitEntries (fun ls => runFile (badHandler p e) ls) entries =
        (takeThrough p (entriesLines entries),
         if (entriesLines entries).any p then Except.error e else Except.ok ())
  | [] => by simp [visitEntries, entriesLines, takeThrough]
  | FsNode.file ls :: rest => by
    by_cases hb : (fileLines ls).any p = true
    · simp [visitEntries, runFile_bad p e ls, hb, entriesLines,
        takeThrough_append, List.any_append]
    · simp [visitEntries, runFile_bad p e ls, hb, entriesLines,
        takeThrough_append, List.any_append, visitEntries_bad p e rest]
  | FsNode.dir es :: rest => by
    by_cases hb : (entriesLines es).any p = true
    · simp [visitEntries, visitEntries_bad p e es, hb, entriesLines,
        takeThrough_append, List.any_append]
    · simp [visitEntries, visitEntries_bad p e es, hb, entriesLines,
        takeThrough_append, List.any_append, visitEntries_bad p e rest]

theorem guarded_append {a b : List Event} (ha : guarded a = true)
    (hb : guarded b = true) : guarded (a ++ b) = true := by
  simp only [guarded, List.foldl_append, beq_iff_eq] at *
  rw [ha, hb]

theorem pseudoLine_guarded (interval : Duration) (delay : Option Duration)
    (env : LineEnv) (it : String) :
    guarded (pseudoLine interval delay env it).1 = true := by
  rcases env with ⟨lock, read, write⟩
  cases lock with
  | poisoned => simp [pseudoLine, guarded, guardStep]
  | ok =>
    cases delay with
    | none => cases write <;> simp [pseudoLine, guarded, guardStep]
    | some d =>
      cases read with
      | err => simp [pseudoLine, guarded, guardStep]
      | ok bs0 =>
        cases hv : validUtf8 (bs0.take bufSize) <;> cases write <;>
          simp [pseudoLine, hv, guarded, guardStep]

theorem publisherLine_guarded (interval : Duration) (delay : Option Duration)
    (env : LineEnv) (it : String) :
    guarded (publisherLine interval delay env it).1 = true := by
  rcases env with ⟨lock, read, write⟩
  cases lock with
  | poisoned => simp [publisherLine, guarded, guardStep]
  | ok =>
    cases write with
    | err => simp [publisherLine, guarded, guardStep]
    | ok =>
      cases delay with
      | none => simp [publisherLine, guarded, guardStep]
      | some d =>
        cases read with
        | err => simp [publisherLine, guarded, guardStep]
        | ok bs0 =>
          cases hv : validUtf8 (bs0.take bufSize) <;>
            simp [publisherLine, hv, guarded, guardStep]

theorem runFile_guarded (cb : String → List Event × Result Unit)
    (h : ∀ t, guarded (cb t).1 = true) :
    ∀ ls : List String, guarded (runFile cb ls).1 = true
  | [] => by simp [runFile, guarded]
  | line :: rest => by
    by_cases he : strIsEmpty (trim line) = true
    · simpa [runFile, he] using runFile_guarded cb h rest
    · rcases hout : cb (trim line) with ⟨out, r⟩
      have hg := h (trim line)
      rw [hout] at hg
      simp only at hg
      cases r with
      | error e => simpa [runFile, he, hout] using hg
      | ok u =>
        rcases hrest : runFile cb rest with ⟨out2, r2⟩
        have hg2 := runFile_guarded cb h rest
        rw [hrest] at hg2
        simp only at hg2
        simp [runFile, he, hout, hrest]
        exact guarded_append hg hg2
  termination_by ls => ls

theorem visitEntries_guarded (g : List String → List Event × Result Unit)
    (h : ∀ ls, guarded (g ls).1 = true) :
    ∀ entries : List FsNode, guarded (visitEntries g entries).1 = true
  | [] => by simp [visitEntries, guarded]
  | FsNode.file ls :: rest => by
    rcases hx : g ls with ⟨out, r⟩
    have hg := h ls
    rw [hx] at hg
    simp only at hg
    cases r with
    | error e => simpa [visitEntries, hx] using hg
    | ok u =>
      rcases hrest : visitEntries g rest with ⟨out2, r2⟩
      have hg2 := visitEntries_guarded g h rest
      rw [hrest] at hg2
      simp only at hg2
      simp [visitEntries, hx, hrest]
      exact guarded_append hg hg2
  | FsNode.dir es :: rest => by
    rcases hx : visitEntries g es with ⟨out, r⟩
    have hg := visitEntries_guarded g h es
    rw [hx] at hg
    simp only at hg
    cases r with
    | error e => simpa [visitEntries, hx] using hg
    | ok u =>
      rcases hrest : visitEntries g rest with ⟨out2, r2⟩
      have hg2 := visitEntries_guarded g h rest
      rw [hrest] at hg2
      simp only at hg2
      simp [visitEntries, hx, hrest]
      exact guarded_append hg hg2

theorem protocols_guarded (cb : String → List Event × Result Unit)
    (h : ∀ t, guarded (cb t).1 = true) (root : Option FsNode) :
    guarded (protocols root cb).1 = true := by
  match root with
  | none => simp [protocols, visit_dirs, guarded]
  | some (FsNode.file ls) => simp [protocols, visit_dirs, guarded]
  | some (FsNode.dir entries) =>
    simpa [protocols, visit_dirs] using
      visitEntries_guarded (fun ls => runFile cb ls)
        (fun ls => runFile_guarded cb h ls) entries

/-- Every instrumentation output of `runFile` comes from the handler applied
to one of the file's nonempty trimmed lines. -/
theorem runFile_mem {ω : Type} (cb : String → List ω × Result Unit) :
    ∀ (ls : List String) (x : ω), x ∈ (runFile cb ls).1 →
      ∃ t, t ∈ fileLines ls ∧ x ∈ (cb t).1
  | [], x => by simp [runFile]
  | line :: rest, x => by
    by_cases he : strIsEmpty (trim line) = true
    · intro hx
      rw [show runFile cb (line :: rest) = runFile cb rest by simp [runFile, he]] at hx
      obtain ⟨t, ht, hxt⟩ := runFile_mem cb rest x hx
      exact ⟨t, by simp [fileLines_cons, he, ht], hxt⟩
    · rcases hout : cb (trim line) with ⟨out, r⟩
      cases r with
      | ok u =>
        rcases hrest : runFile cb rest with ⟨out2, r2⟩
        intro hx
        have hx1 : x ∈ out ++ out2 := by simpa [runFile, he, hout, hrest] using hx
        rcases List.mem_append.mp hx1 with hxa | hxb
        · exact ⟨trim line, by simp [fileLines_cons, he], by rw [hout]; exact hxa⟩
        · obtain ⟨t, ht, hxt⟩ := runFile_mem cb rest x (by rw [hrest]; exact hxb)
          exact ⟨t, by simp [fileLines_cons, he, ht], hxt⟩
      | error e =>
        intro hx
        have hx1 : x ∈ out := by simpa [runFile, he, hout] using hx
        exact ⟨trim line, by simp [fileLines_cons, he], by rw [hout]; exact hx1⟩

/-- Every instrumentation output of the walk comes from the handler applied
to one of the reachable lines. -/
theorem visitEntries_mem {ω : Type} (cb : String → List ω × Result Unit) :
    ∀ (entries : List FsNode) (x : ω),
      x ∈ (visitEntries (fun ls => runFile cb ls) entries).1 →
        ∃ t, t ∈ entriesLines entries ∧ x ∈ (cb t).1
  | [], x => by simp [visitEntries]
  | FsNode.file ls :: rest, x => by
    rcases hx0 : runFile cb ls with ⟨out, r⟩
    cases r with
    | ok u =>
      rcases hrest : visitEntries (fun ls => runFile cb ls) rest with ⟨out2, r2⟩
      intro hx
      have hx1 : x ∈ out ++ out2 := by simpa [visitEntries, hx0, hrest] using hx
      rcases List.mem_append.mp hx1 with hxa | hxb
      · obtain ⟨t, ht, hxt⟩ := runFile_mem cb ls x (by rw [hx0]; exact hxa)
        exact ⟨t, by simp [entriesLines, ht], hxt⟩
      · obtain ⟨t, ht, hxt⟩ := visitEntries_mem cb rest x (by rw [hrest]; exact hxb)
        exact ⟨t, by simp [entriesLines, ht], hxt⟩
    | error e =>
      intro hx
      have hx1 : x ∈ out := by simpa [visitEntries, hx0] using hx
      obtain ⟨t, ht, hxt⟩ := runFile_mem cb ls x (by rw [hx0]; exact hx1)
      exact ⟨t, by simp [entriesLines, ht], hxt⟩
  | FsNode.dir es :: rest, x => by
    rcases hx0 : visitEntries (fun ls => runFile cb ls) es with ⟨out, r⟩
    cases r with
    | ok u =>
      rcases hrest : visitEntries (fun ls => runFile cb ls) rest with ⟨out2, r2⟩
      intro hx
      have hx1 : x ∈ out ++ out2 := by simpa [visitEntries, hx0, hrest] using hx
      rcases List.mem_append.mp hx1 with hxa | hxb
      · obtain ⟨t, ht, hxt⟩ := visitEntries_mem cb es x (by rw [hx0]; exact hxa)
        exact ⟨t, by simp [entriesLines, ht], hxt⟩
      · obtain ⟨t, ht, hxt⟩ := visitEntries_mem cb rest x (by rw [hrest]; exact hxb)
        exact ⟨t, by simp [entriesLines, ht], hxt⟩
    | error e =>
      intro hx
      have hx1 : x ∈ out := by simpa [visitEntries, hx0] using hx
      obtain ⟨t, ht, hxt⟩ := visitEntries_mem cb es x (by rw [hx0]; exact hx1)
      exact ⟨t, by simp [entriesLines, ht], hxt⟩

/-- Every instrumentation output of `protocols` comes from the handler
applied to one of the root's reachable lines. -/
theorem protocols_mem {ω : Type} (cb : String → List ω × Result Unit)
    (root : Option FsNode) (x : ω) (hx : x ∈ (protocols root cb).1) :
    ∃ t, t ∈ allLines root ∧ x ∈ (cb t).1 := by
  match root with
  | none => simp [protocols, visit_dirs] at hx
  | some (FsNode.file ls) => simp [protocols, visit_dirs] at hx
  | some (FsNode.dir entries) =>
    have := visitEntries_mem cb entries x (by simpa [protocols, visit_dirs] using hx)
    simpa [allLines] using this

/-- Any write event of the pseudo-terminal per-line closure carries exactly
the line's bytes. -/
theorem pseudoLine_write_mem (interval : Duration) (delay : Option Duration)
    (env : LineEnv) (it : String) (b : List Nat)
    (hmem : Event.writeChan b ∈ (pseudoLine interval delay env it).1) :
    b = strBytes it := by
  rcases env with ⟨lock, read, write⟩
  cases lock with
  | poisoned => simp [pseudoLine] at hmem
  | ok =>
    cases delay with
    | none => cases write <;> simp [pseudoLine] at hmem <;> exact hmem
    | some d =>
      cases read with
      | err => simp [pseudoLine] at hmem
      | ok bs0 =>
        cases hv : validUtf8 (bs0.take bufSize) with
        | false => simp [pseudoLine, hv] at hmem
        | true => cases write <;> simp [pseudoLine, hv] at hmem <;> exact hmem

/-- Any write event of the publisher per-line closure carries exactly the
line's bytes. -/
theorem publisherLine_write_mem (interval : Duration) (delay : Option Duration)
    (env : LineEnv) (it : String) (b : List Nat)
    (hmem : Event.writeChan b ∈ (publisherLine interval delay env it).1) :
    b = strBytes it := by
  rcases env with ⟨lock, read, write⟩
  cases lock with
  | poisoned => simp [publisherLine] at hmem
  | ok =>
    cases write with
    | err => simp [publisherLine] at hmem; exact hmem
    | ok =>
      cases delay with
      | none => simp [publisherLine] at hmem; exact hmem
      | some d =>
        cases read with
        | err => simp [publisherLine] at hmem; exact hmem
        | ok bs0 =>
          cases hv : validUtf8 (bs0.take bufSize) <;>
            simp [publisherLine, hv] at hmem <;> exact hmem

/-! ## Claims -/

/-- C2: for every protocol file, the loader invokes the per-line handler
exactly once per line that is nonempty after trimming surrounding whitespace,
with the trimmed text, in the file's line order; in particular, for a file
with lines ["A", "", "  ", "B"] the handler is invoked exactly twice, with
"A" then "B". -/
theorem loader_invocations_trimmed_in_order :
    (∀ ls : List String, runFile recHandler ls = (fileLines ls, Except.ok ())) ∧
    (∀ root : Option FsNode,
       protocols root recHandler = (allLines root, Except.ok ())) ∧
    protocols (some (FsNode.dir [FsNode.file ["A", "", "  ", "B"]])) recHandler =
      (["A", "B"], Except.ok ()) := by
  have h : ∀ t, (recHandler t).2 = Except.ok () := fun _ => rfl
  refine ⟨fun ls => ?_, fun root => ?_, ?_⟩
  · simpa [recHandler, flatMap_single] using runFile_ok recHandler h ls
  · simpa [recHandler, flatMap_single] using protocols_ok recHandler h root
  · simp +decide [protocols, visit_dirs, visitEntries, runFile, recHandler]

/-- C5: if the per-line handler returns an error for some line — including a
`DecodeError` (`Error.utf8`) when the bytes read from the channel are not
valid UTF-8, and a read I/O error — the directory walk stops immediately at
that line: the handler invocations are exactly the lines up to and including
the failing one, no further line or file is processed, and the error
propagates to the caller. -/
theorem handler_error_stops_walk :
    (∀ (p : String → Bool) (e : Error) (root : Option FsNode),
       protocols root (badHandler p e) =
         (takeThrough p (allLines root),
          if (allLines root).any p then Except.error e else Except.ok ())) ∧
    (pseudoLine 1 (some 1) ⟨LockOutcome.ok, ReadOutcome.ok [0xFF], WriteOutcome.ok⟩
        "A").2 = Except.error Error.utf8 ∧
    (publisherLine 1 (some 1) ⟨LockOutcome.ok, ReadOutcome.ok [0xFF], WriteOutcome.ok⟩
        "A").2 = Except.error Error.utf8 ∧
    (pseudoLine 1 (some 1) ⟨LockOutcome.ok, ReadOutcome.err, WriteOutcome.ok⟩
        "A").2 = Except.error Error.stdIo := by
  refine ⟨fun p e root => ?_, rfl, rfl, rfl⟩
  match root with
  | none => simp [protocols, visit_dirs, allLines, takeThrough]
  | some (FsNode.file ls) => simp [protocols, visit_dirs, allLines, takeThrough]
  | some (FsNode.dir entries) =>
    simpa [protocols, visit_dirs, allLines] using visitEntries_bad p e entries

/-- C9: for a root path that does not exist (`none`) or is not a directory
(a regular-file node), the protocol walk is a no-op: it returns success,
invokes the per-line handler zero times, and emits no events. -/
theorem non_directory_root_noop :
    (∀ (ω : Type) (cb : String → List ω × Result Unit),
       protocols none cb = ([], Except.ok ())) ∧
    (∀ (ω : Type) (cb : String → List ω × Result Unit) (ls : List String),
       protocols (some (FsNode.file ls)) cb = ([], Except.ok ())) :=
  ⟨fun _ _ => rfl, fun _ _ _ => rfl⟩

/-- C6: every read and every write on the shared port channel — in the
pseudo-terminal emulator and in the publisher — occurs only between
acquisition and release of the channel's exclusive guard; no event touches
the channel outside a guarded critical section, acquire/release bracket
properly, and the guard is released on every exit path, error exits
included. -/
theorem channel_access_guarded :
    (∀ interval delay env it, guarded (pseudoLine interval delay env it).1 = true) ∧
    (∀ interval delay env it, guarded (publisherLine interval delay env it).1 = true) ∧
    (∀ root interval delay env, guarded (pseudoStart root interval delay env).1 = true) ∧
    (∀ root interval delay env, guarded (publisherRun root interval delay env).1 = true) :=
  ⟨pseudoLine_guarded, publisherLine_guarded,
   fun root interval delay env =>
     protocols_guarded _ (fun t => pseudoLine_guarded interval delay (env t) t) root,
   fun root interval delay env =>
     protocols_guarded _ (fun t => publisherLine_guarded interval delay (env t) t) root⟩

/-- C8: for every processed line, the bytes handed to the channel write — by
the pseudo-terminal emulator and by the publisher — are exactly the UTF-8
bytes of the trimmed line: the full line is passed, with no re-encoding, no
appended framing, and no truncation; at run level every written payload is
the byte encoding of one of the walked trimmed lines. -/
theorem write_bytes_exact :
    (∀ interval delay env it b,
       Event.writeChan b ∈ (pseudoLine interval delay env it).1 → b = strBytes it) ∧
    (∀ interval delay env it b,
       Event.writeChan b ∈ (publisherLine interval delay env it).1 → b = strBytes it) ∧
    (∀ root interval delay env b,
       Event.writeChan b ∈ (pseudoStart root interval delay env).1 →
         ∃ t, t ∈ allLines root ∧ b = strBytes t) ∧
    (∀ root interval delay env b,
       Event.writeChan b ∈ (publisherRun root interval delay env).1 →
         ∃ t, t ∈ allLines root ∧ b = strBytes t) := by
  refine ⟨fun i d e it b h => pseudoLine_write_mem i d e it b h,
          fun i d e it b h => publisherLine_write_mem i d e it b h,
          fun root i d env b h => ?_, fun root i d env b h => ?_⟩
  · obtain ⟨t, ht, hb⟩ := protocols_mem _ root _ h
    exact ⟨t, ht, pseudoLine_write_mem i d (env t) t b hb⟩
  · obtain ⟨t, ht, hb⟩ := protocols_mem _ root _ h
    exact ⟨t, ht, publisherLine_write_mem i d (env t) t b hb⟩

/-- Witness for `write_bytes_exact` at a concrete input: the payload of the
write event emitted for the line "A" is its UTF-8 byte 65. -/
theorem write_bytes_exact_witness : ([65] : List Nat) = strBytes "A" :=
  write_bytes_exact.1 1 none ⟨LockOutcome.ok, ReadOutcome.ok [], WriteOutcome.ok⟩
    "A" [65] (by decide)

/-- C4: for every line whose guard acquisition fails (a poisoned lock), the
line's read and write are skipped (no channel event occurs), the per-line
handler nevertheless returns success, and replay continues with the next line
instead of aborting — in both the pseudo-terminal emulator and the
publisher. -/
theorem lock_failure_skips_line :
    (∀ interval delay env it, env.lock = LockOutcome.poisoned →
       pseudoLine interval delay env it =
         ([Event.lockFailLog, Event.sleep interval], Except.ok ()) ∧
       publisherLine interval delay env it =
         ([Event.sleep interval, Event.lockFailLog], Except.ok ())) ∧
    (∀ root interval delay,
       pseudoStart root interval delay
           (fun _ => ⟨LockOutcome.poisoned, ReadOutcome.err, WriteOutcome.err⟩) =
         ((allLines root).flatMap (fun _ => [Event.lockFailLog, Event.sleep interval]),
          Except.ok ()) ∧
       publisherRun root interval delay
           (fun _ => ⟨LockOutcome.poisoned, ReadOutcome.err, WriteOutcome.err⟩) =
         ((allLines root).flatMap (fun _ => [Event.sleep interval, Event.lockFailLog]),
          Except.ok ())) ∧
    pseudoStart (some (FsNode.dir [FsNode.file ["A", "B"]])) 3 none
        (fun t => if t == "A" then ⟨LockOutcome.poisoned, ReadOutcome.err, WriteOutcome.err⟩
                  else ⟨LockOutcome.ok, ReadOutcome.err, WriteOutcome.ok⟩) =
      ([Event.lockFailLog, Event.sleep 3, Event.lockAcquire,
        Event.writeChan (strBytes "B"), Event.lockRelease, Event.sleep 3],
       Except.ok ()) := by
  refine ⟨fun interval delay env it hp => ?_, fun root interval delay => ⟨?_, ?_⟩, ?_⟩
  · rcases env with ⟨lock, read, write⟩
    simp only at hp
    subst hp
    exact ⟨rfl, rfl⟩
  · rw [pseudoStart, protocols_ok _ (fun t => rfl) root]
    rfl
  · rw [publisherRun, protocols_ok _ (fun t => rfl) root]
    rfl
  · simp +decide [pseudoStart, protocols, visit_dirs, visitEntries, runFile, pseudoLine]

/-- Witness for `lock_failure_skips_line` at a concrete input. -/
theorem lock_failure_skips_line_witness :
    pseudoLine 3 none ⟨LockOutcome.poisoned, ReadOutcome.err, WriteOutcome.err⟩ "A" =
      ([Event.lockFailLog, Event.sleep 3], Except.ok ()) ∧
    publisherLine 3 none ⟨LockOutcome.poisoned, ReadOutcome.err, WriteOutcome.err⟩ "A" =
      ([Event.sleep 3, Event.lockFailLog], Except.ok ()) :=
  lock_failure_skips_line.1 3 none
    ⟨LockOutcome.poisoned, ReadOutcome.err, WriteOutcome.err⟩ "A" rfl

/-- C3: for every line with the guard acquired, when a delay is configured
the publisher sleeps for the interval, then writes the line's bytes, then
sleeps for the delay, then performs exactly one read of up to 1024 bytes;
when no delay is configured it performs the write only and never reads. -/
theorem publisher_write_delay_read
    (interval d : Duration) (env : LineEnv) (it : String) (bs : List Nat)
    (hl : env.lock = LockOutcome.ok) (hw : env.write = WriteOutcome.ok)
    (hr : env.read = ReadOutcome.ok bs) (hv : validUtf8 (bs.take bufSize) = true) :
    publisherLine interval (some d) env it =
      ([Event.sleep interval, Event.lockAcquire, Event.writeChan (strBytes it),
        Event.sleep d, Event.readChan (bs.take bufSize), Event.lockRelease],
       Except.ok ()) ∧
    (bs.take bufSize).length ≤ 1024 ∧
    publisherLine interval none env it =
      ([Event.sleep interval, Event.lockAcquire, Event.writeChan (strBytes it),
        Event.lockRelease], Except.ok ()) ∧
    (∀ (env2 : LineEnv) (b : List Nat),
       Event.readChan b ∉ (publisherLine interval none env2 it).1 ∧
       Event.readFail ∉ (publisherLine interval none env2 it).1) := by
  rcases env with ⟨lock, read, write⟩
  simp only at hl hw hr
  subst hl; subst hw; subst hr
  refine ⟨by simp [publisherLine, hv], ?_, by simp [publisherLine], ?_⟩
  · calc (bs.take bufSize).length ≤ bufSize := List.length_take_le bufSize bs
      _ ≤ 1024 := by decide
  · intro env2 b
    rcases env2 with ⟨lock2, read2, write2⟩
    cases lock2 <;> cases write2 <;> constructor <;> simp [publisherLine]

/-- Witness for `publisher_write_delay_read` at a concrete input. -/
theorem publisher_write_delay_read_witness :
    publisherLine 3 (some 5) ⟨LockOutcome.ok, ReadOutcome.ok [65], WriteOutcome.ok⟩ "B" =
      ([Event.sleep 3, Event.lockAcquire, Event.writeChan (strBytes "B"),
        Event.sleep 5, Event.readChan (List.take bufSize [65]), Event.lockRelease],
       Except.ok ()) :=
  (publisher_write_delay_read 3 5 ⟨LockOutcome.ok, ReadOutcome.ok [65], WriteOutcome.ok⟩
    "B" [65] rfl rfl rfl (by decide)).1

/-- C10: the interval sleep is placed asymmetrically: the publisher sleeps
for the interval before each line's I/O, so even the first line's write is
preceded by a full interval; the pseudo-terminal emulator sleeps for the
interval after each line's I/O (its line trace starts with the guard
acquisition, or the failure log, and ends with the interval sleep whenever
the handler succeeds), so the first line's write has no prior interval
pacing; and in both modes the interval sleep happens even for lines whose
I/O was skipped after a failed guard acquisition. -/
theorem interval_sleep_asymmetry :
    (∀ interval delay env it,
       (publisherLine interval delay env it).1.head? = some (Event.sleep interval)) ∧
    (∀ interval delay env it, env.lock = LockOutcome.ok →
       (pseudoLine interval delay env it).1.head? = some Event.lockAcquire) ∧
    (∀ interval delay env it, (pseudoLine interval delay env it).2 = Except.ok () →
       ∃ pre, (pseudoLine interval delay env it).1 = pre ++ [Event.sleep interval]) ∧
    (∀ interval delay env it, env.lock = LockOutcome.poisoned →
       pseudoLine interval delay env it =
         ([Event.lockFailLog, Event.sleep interval], Except.ok ()) ∧
       publisherLine interval delay env it =
         ([Event.sleep interval, Event.lockFailLog], Except.ok ())) := by
  refine ⟨fun interval delay env it => ?_, fun interval delay env it hl => ?_,
          fun interval delay env it hok => ?_, fun interval delay env it hp => ?_⟩
  · rcases env with ⟨lock, read, write⟩
    cases lock with
    | poisoned => simp [publisherLine]
    | ok =>
      cases write with
      | err => simp [publisherLine]
      | ok =>
        cases delay with
        | none => simp [publisherLine]
        | some d =>
          cases read with
          | err => simp [publisherLine]
          | ok bs0 =>
            cases hv : validUtf8 (bs0.take bufSize) <;> simp [publisherLine, hv]
  · rcases env with ⟨lock, read, write⟩
    simp only at hl
    subst hl
    cases delay with
    | none => cases write <;> simp [pseudoLine]
    | some d =>
      cases read with
      | err => simp [pseudoLine]
      | ok bs0 =>
        cases hv : validUtf8 (bs0.take bufSize) <;> cases write <;>
          simp [pseudoLine, hv]
  · rcases env with ⟨lock, read, write⟩
    cases lock with
    | poisoned => exact ⟨[Event.lockFailLog], by simp [pseudoLine]⟩
    | ok =>
      cases delay with
      | none =>
        cases write with
        | ok =>
          exact ⟨[Event.lockAcquire, Event.writeChan (strBytes it),
                  Event.lockRelease], by simp [pseudoLine]⟩
        | err => simp [pseudoLine] at hok
      | some d =>
        cases read with
        | err => simp [pseudoLine] at hok
        | ok bs0 =>
          cases hv : validUtf8 (bs0.take bufSize) with
          | false => simp [pseudoLine, hv] at hok
          | true =>
            cases write with
            | ok =>
              exact ⟨[Event.lockAcquire, Event.readChan (bs0.take bufSize),
                      Event.sleep d, Event.writeChan (strBytes it),
                      Event.lockRelease], by simp [pseudoLine, hv]⟩
            | err => simp [pseudoLine, hv] at hok
  · rcases env with ⟨lock, read, write⟩
    simp only at hp
    subst hp
    exact ⟨rfl, rfl⟩

/-- Witness for `interval_sleep_asymmetry` at a concrete input. -/
theorem interval_sleep_asymmetry_witness :
    (pseudoLine 3 none ⟨LockOutcome.ok, ReadOutcome.ok [], WriteOutcome.ok⟩ "A").1.head? =
      some Event.lockAcquire :=
  interval_sleep_asymmetry.2.1 3 none
    ⟨LockOutcome.ok, ReadOutcome.ok [], WriteOutcome.ok⟩ "A" rfl

/-- C1 counterexample: on a root holding a single one-line file, with a delay
configured, the run's very first processed line performs a channel read, and
the delay sleep happens after that read, not before it — refuting both the
claimed sleep-then-read order and the claimed exemption of the first line
from the read/delay step. -/
theorem pseudo_first_line_read_ce :
    pseudoStart (some (FsNode.dir [FsNode.file ["A"]])) 7 (some 5)
        (fun _ => ⟨LockOutcome.ok, ReadOutcome.ok [65], WriteOutcome.ok⟩) =
      ([Event.lockAcquire, Event.readChan [65], Event.sleep 5,
        Event.writeChan [65], Event.lockRelease, Event.sleep 7], Except.ok ()) := by
  simp +decide [pseudoStart, protocols, visit_dirs, visitEntries, runFile, pseudoLine]

/-- C1 (amended): for every protocol line when a delay is configured —
including the first line — the pseudo-terminal emulator processes the line by
first performing one read of up to 1024 bytes from the master side, then
sleeping for the delay, then writing the line's bytes, in that order (and
finally sleeping for the interval); this same shape applies to every line of
a run. -/
theorem pseudo_read_delay_write_order (interval d : Duration) (env : LineEnv)
    (it : String) (bs : List Nat) (hl : env.lock = LockOutcome.ok)
    (hw : env.write = WriteOutcome.ok) (hr : env.read = ReadOutcome.ok bs)
    (hv : validUtf8 (bs.take bufSize) = true) :
    pseudoLine interval (some d) env it =
      ([Event.lockAcquire, Event.readChan (bs.take bufSize), Event.sleep d,
        Event.writeChan (strBytes it), Event.lockRelease, Event.sleep interval],
       Except.ok ()) ∧
    (∀ root, pseudoStart root interval (some d) (fun _ => env) =
       ((allLines root).flatMap (fun t =>
          [Event.lockAcquire, Event.readChan (bs.take bufSize), Event.sleep d,
           Event.writeChan (strBytes t), Event.lockRelease, Event.sleep interval]),
        Except.ok ())) := by
  rcases env with ⟨lock, read, write⟩
  simp only at hl hw hr
  subst hl; subst hw; subst hr
  constructor
  · simp [pseudoLine, hv]
  · intro root
    rw [pseudoStart, protocols_ok _ (fun t => by simp [pseudoLine, hv]) root]
    simp [pseudoLine, hv]

/-- Witness for `pseudo_read_delay_write_order` at a concrete input. -/
theorem pseudo_read_delay_write_order_witness :
    pseudoLine 7 (some 5) ⟨LockOutcome.ok, ReadOutcome.ok [65], WriteOutcome.ok⟩ "A" =
      ([Event.lockAcquire, Event.readChan (List.take bufSize [65]), Event.sleep 5,
        Event.writeChan (strBytes "A"), Event.lockRelease, Event.sleep 7],
       Except.ok ()) :=
  (pseudo_read_delay_write_order 7 5
    ⟨LockOutcome.ok, ReadOutcome.ok [65], WriteOutcome.ok⟩ "A" [65]
    rfl rfl rfl (by decide)).1

/-- C7 counterexample: the baud-rate token "300" denotes a rate outside the
enumerated `BaudRate` set, yet `launch`'s settings construction succeeds,
silently accepting baud rate 300 — startup does not fail. -/
theorem baud_rate_not_validated_ce :
    launchSettings (some "300") none none none none =
      some ⟨300, serialport.DataBits.Eight, serialport.FlowControl.None,
            serialport.Parity.None, serialport.StopBits.One⟩ ∧
    300 ∉ BaudRate :=
  ⟨rfl, by decide⟩

/-- C7 (amended): unrecognized tokens for the four enumerated line settings —
data bits, flow control, parity, stop bits — make startup fail (the
corresponding match panics instead of substituting a default); the baud rate,
however, is not validated against the enumerated `BaudRate` set: any token
that parses as a `u32` is accepted as-is, recognized rate or not, and only a
token that fails to parse as a `u32` is fatal. -/
theorem enum_token_validation (s : String) :
    (s ∉ DataBits.map Prod.fst → matchDataBits s = none ∧
       ∀ b f p st, launchSettings b (some s) f p st = none) ∧
    (s ∉ FlowControl.map Prod.fst → matchFlowControl s = none ∧
       ∀ b d p st, launchSettings b d (some s) p st = none) ∧
    (s ∉ Parity.map Prod.fst → matchParity s = none ∧
       ∀ b d f st, launchSettings b d f (some s) st = none) ∧
    (s ∉ StopBits.map Prod.fst → matchStopBits s = none ∧
       ∀ b d f p, launchSettings b d f p (some s) = none) ∧
    (∀ n, parseU32 s = some n →
       launchSettings (some s) none none none none =
         some ⟨n, serialport.DataBits.Eight, serialport.FlowControl.None,
               serialport.Parity.None, serialport.StopBits.One⟩) ∧
    (parseU32 s = none → ∀ d f p st, launchSettings (some s) d f p st = none) := by
  refine ⟨fun h => ?_, fun h => ?_, fun h => ?_, fun h => ?_,
          fun n hn => ?_, fun h d f p st => ?_⟩
  · simp [DataBits] at h
    obtain ⟨h1, h2, h3, h4⟩ := h
    have hm : matchDataBits s = none := by
      simp [matchDataBits, beq_iff_eq, h1, h2, h3, h4]
    refine ⟨hm, fun b f p st => ?_⟩
    cases hbr : parseU32 (b.getD "9600") <;> simp [launchSettings, hbr, hm]
  · simp [FlowControl] at h
    obtain ⟨h1, h2, h3⟩ := h
    have hm : matchFlowControl s = none := by
      simp [matchFlowControl, beq_iff_eq, h1, h2, h3]
    refine ⟨hm, fun b d p st => ?_⟩
    cases hbr : parseU32 (b.getD "9600") <;>
      cases hdb : matchDataBits (d.getD "Eight") <;>
        simp [launchSettings, hbr, hdb, hm]
  · simp [Parity] at h
    obtain ⟨h1, h2, h3⟩ := h
    have hm : matchParity s = none := by
      simp [matchParity, beq_iff_eq, h1, h2, h3]
    refine ⟨hm, fun b d f st => ?_⟩
    cases hbr : parseU32 (b.getD "9600") <;>
      cases hdb : matchDataBits (d.getD "Eight") <;>
        cases hfc : matchFlowControl (f.getD "None") <;>
          simp [launchSettings, hbr, hdb, hfc, hm]
  · simp [StopBits] at h
    obtain ⟨h1, h2⟩ := h
    have hm : matchStopBits s = none := by
      simp [matchStopBits, beq_iff_eq, h1, h2]
    refine ⟨hm, fun b d f p => ?_⟩
    cases hbr : parseU32 (b.getD "9600") <;>
      cases hdb : matchDataBits (d.getD "Eight") <;>
        cases hfc : matchFlowControl (f.getD "None") <;>
          cases hpa : matchParity (p.getD "None") <;>
            simp [launchSettings, hbr, hdb, hfc, hpa, hm]
  · simp [launchSettings, Option.getD, hn]
    rfl
  · simp [launchSettings, Option.getD, h]

/-- Witness for `enum_token_validation` at a concrete input. -/
theorem enum_token_validation_witness :
    matchDataBits "Bogus" = none ∧
    ∀ b f p st, launchSettings b (some "Bogus") f p st = none :=
  (enum_token_validation "Bogus").1 (by decide)

end Equuleus
